import Mathlib

/-!
Verification of the streaming candle-store and technical-indicator engine
of the krakenbot chart client (`CandlestickChart.jsx`).

The candle store is the React state `historicalData`; its two operations are
the snapshot install (`setHistoricalData(data.data)`, both in
`fetchHistoricalData` and in the `initial_ohlcv` branch of the WebSocket
handler) and the `ohlcv_update` merge branch.  The indicator functions
`ema`, `rsi`, `sma` and the Bollinger-band block are translated from the
`useEffect` body of the same component.  JavaScript numbers are modelled as
exact rationals; JavaScript sparse arrays (the `rsi` helper assigns `out[i]`
only from index `period` on) are modelled by the explicit length/hole
behaviour of index assignment.
-/

/-- One OHLCV record, as built by the `ohlcv_update` branch:
`{ timestamp, datetime, open, high, low, close, volume }`. -/
structure Candle where
  timestamp : ℤ
  datetime : String
  «open» : ℚ
  high : ℚ
  low : ℚ
  close : ℚ
  volume : ℚ
deriving DecidableEq, Repr

/-- Helper to build a concrete candle with timestamp `t` and all prices `p`. -/
def mkC (t : ℤ) (p : ℚ) : Candle :=
  ⟨t, "", p, p, p, p, p⟩

/-- Snapshot install: `setHistoricalData(data.data)` — the incoming sequence
is stored verbatim, with no client-side truncation (the `limit=100` bound is
only a parameter of the historical fetch request). -/
def replaceAll (candles : List Candle) : List Candle :=
  candles

/-- The `ohlcv_update` branch:
`if (newData.length > 0 && newData[lastIndex].timestamp === data.timestamp)`
replace the last element, `else` push the update and, when the length now
exceeds 100, `shift()` the oldest entry off the front. -/
def applyUpdate (prev : List Candle) (u : Candle) : List Candle :=
  if prev.getLast?.map Candle.timestamp = some u.timestamp then
    prev.set (prev.length - 1) u
  else
    let newData := prev ++ [u]
    if 100 < newData.length then newData.drop 1 else newData

/-- The store invariants of the spec: at most one candle per timestamp and
ascending time order, packaged as strict pairwise ordering of timestamps. -/
def StoreInv (l : List Candle) : Prop :=
  l.Pairwise fun a b => a.timestamp < b.timestamp

instance (l : List Candle) : Decidable (StoreInv l) :=
  List.instDecidablePairwise l

/-- Loop body of the `ema` helper.  `values` is the whole input (needed for
the seed `values.slice(0, period)`), `prev` is the running EMA (JavaScript
`null` is `none`; `null` coerces to `0` in arithmetic, hence `prev.getD 0`),
`i` is the loop index, and the last argument is the remaining suffix
`values.drop i`. -/
def emaGo (values : List ℚ) (p : Nat) (k : ℚ) :
    Option ℚ → Nat → List ℚ → List (Option ℚ)
  | _, _, [] => []
  | prev, i, v :: rest =>
    if i = p - 1 then
      let seed := (values.take p).sum / (p : ℚ)
      some seed :: emaGo values p k (some seed) (i + 1) rest
    else if p ≤ i then
      let cur := v * k + prev.getD 0 * (1 - k)
      some cur :: emaGo values p k (some cur) (i + 1) rest
    else
      none :: emaGo values p k prev (i + 1) rest

/-- The `ema` helper: `k = 2/(period+1)`, seed at index `period-1` is the
mean of the first `period` values, recurrence `v*k + prev*(1-k)` afterwards,
`null` before the seed. -/
def ema (values : List ℚ) (p : Nat) : List (Option ℚ) :=
  emaGo values p (2 / ((p : ℚ) + 1)) none 0 values

/-- Loop state of the `rsi` helper: the summed `gains`/`losses` of the warm-up
phase and the Wilder-smoothed `prevAvgGain`/`prevAvgLoss`. -/
structure RsiSt where
  gains : ℚ
  losses : ℚ
  prevAvgGain : ℚ
  prevAvgLoss : ℚ

/-- `const rs = avgLoss === 0 ? 100 : avgGain / avgLoss`. -/
def rsiRS (avgGain avgLoss : ℚ) : ℚ :=
  if avgLoss = 0 then 100 else avgGain / avgLoss

/-- `out[i] = 100 - 100 / (1 + rs)`. -/
def rsiVal (rs : ℚ) : ℚ :=
  100 - 100 / (1 + rs)

/-- Loop body of the `rsi` helper, iterating `i` from `1`, with `prev` the
previous value `values[i-1]` and the last argument the suffix from index `i`.
It returns, in order, the values assigned to `out[i]` — which happens exactly
at the indices `i ≥ period`. -/
def rsiGo (p : Nat) : RsiSt → Nat → ℚ → List ℚ → List ℚ
  | _, _, _, [] => []
  | st, i, prev, v :: rest =>
    let change := v - prev
    if i ≤ p then
      let gains := if 0 < change then st.gains + change else st.gains
      let losses := if 0 < change then st.losses else st.losses + |change|
      if i = p then
        let avgGain := gains / (p : ℚ)
        let avgLoss := losses / (p : ℚ)
        rsiVal (rsiRS avgGain avgLoss) ::
          rsiGo p ⟨gains, losses, avgGain, avgLoss⟩ (i + 1) v rest
      else
        rsiGo p ⟨gains, losses, st.prevAvgGain, st.prevAvgLoss⟩ (i + 1) v rest
    else
      let gain := max 0 change
      let loss := max 0 (-change)
      let avgGain := (st.prevAvgGain * ((p : ℚ) - 1) + gain) / (p : ℚ)
      let avgLoss := (st.prevAvgLoss * ((p : ℚ) - 1) + loss) / (p : ℚ)
      rsiVal (rsiRS avgGain avgLoss) ::
        rsiGo p ⟨st.gains, st.losses, avgGain, avgLoss⟩ (i + 1) v rest

/-- The `rsi` helper.  In JavaScript `out` is a sparse array: `out[i]` is
assigned only at indices `i ≥ period`, so when no assignment ever happens
(input length ≤ period) the result is the empty array, and otherwise the
array has length `values.length` with holes (`undefined`, here `none`) at
indices `0 … period-1`. -/
def rsi (values : List ℚ) (p : Nat) : List (Option ℚ) :=
  match values with
  | [] => []
  | v :: rest =>
    let assigned := rsiGo p ⟨0, 0, 0, 0⟩ 1 v rest
    if assigned = [] then [] else List.replicate p none ++ assigned.map some

/-- The `sma` helper: at each index `i ≥ period-1` the mean of
`values.slice(i-period+1, i+1)`, else `null`. -/
def sma (values : List ℚ) (p : Nat) : List (Option ℚ) :=
  (List.range values.length).map fun i =>
    if p - 1 ≤ i then
      some ((((values.drop (i + 1 - p)).take p).sum) / (p : ℚ))
    else none

/-- The Bollinger-band block (`bbEnabled`): period 20, `middle = sma`,
population variance of the trailing window, `upper/lower = mean ± 2·stddev`,
`null` where the window is not full.  The square root forces real values. -/
noncomputable def bbUpperLower (closes : List ℚ) : List (Option ℝ × Option ℝ) :=
  let p : Nat := 20
  let middle := sma closes p
  (List.range closes.length).map fun i =>
    if p - 1 ≤ i ∧ middle.getD i none ≠ none then
      let mean : ℚ := (middle.getD i none).getD 0
      let slice := (closes.drop (i + 1 - p)).take p
      let variance : ℚ := (slice.map fun v => (v - mean) ^ 2).sum / (p : ℚ)
      let sd : ℝ := Real.sqrt (variance : ℝ)
      (some ((mean : ℝ) + 2 * sd), some ((mean : ℝ) - 2 * sd))
    else (none, none)

/-! ### Store lemmas -/

/-- Assigning the last index of a nonempty list replaces its last element. -/
theorem set_last_eq {α : Type _} (l : List α) (u : α) (h : l ≠ []) :
    l.set (l.length - 1) u = l.dropLast ++ [u] := by
  induction l with
  | nil => cases h rfl
  | cons a t ih =>
    cases t with
    | nil => rfl
    | cons b t' =>
      have h2 : (a :: b :: t').length - 1 = ((b :: t').length - 1) + 1 := by
        simp
      rw [h2]
      show a :: (b :: t').set ((b :: t').length - 1) u = _
      rw [ih (by simp), List.dropLast_cons₂, List.cons_append]

/-- The merge branch in closed form: the update replaces the last element
exactly when its timestamp equals the tail timestamp, and is appended
(evicting one oldest entry past length 100) otherwise. -/
theorem applyUpdate_eq (prev : List Candle) (u : Candle) :
    applyUpdate prev u =
      if prev.getLast?.map Candle.timestamp = some u.timestamp then
        prev.dropLast ++ [u]
      else if 100 < prev.length + 1 then (prev ++ [u]).drop 1
      else prev ++ [u] := by
  unfold applyUpdate
  split
  · next hcond =>
    have hne : prev ≠ [] := by
      intro he
      rw [he] at hcond
      simp at hcond
    exact set_last_eq prev u hne
  · next hcond =>
    simp

/-! ### Claims about the candle store -/

/-- C1 (amended): installing a snapshot stores the input verbatim — reading
back returns exactly the given sequence, with no truncation to 100 entries. -/
theorem replaceAll_verbatim (candles : List Candle) :
    replaceAll candles = candles := rfl

/-- A concrete 101-candle snapshot, timestamps `0 … 100`. -/
def candles101 : List Candle :=
  (List.range 101).map fun n => mkC n 0

/-- C1 counterexample: a 101-candle snapshot is kept whole, so the read-back
is not the input truncated to at most the 100 most-recent entries. -/
theorem replaceAll_cex :
    (replaceAll candles101).length = 101 ∧
    ¬ (replaceAll candles101).length ≤ 100 := by
  decide

/-- C2 (amended): the update is merged by comparing its timestamp with the
current tail only — on a tail match the last element is replaced in place,
and otherwise (even when a non-tail candle has the same timestamp) the update
is appended, with one oldest entry evicted past length 100. -/
theorem applyUpdate_tail_match_only (prev : List Candle) (u : Candle) :
    (prev.getLast?.map Candle.timestamp = some u.timestamp →
      applyUpdate prev u = prev.dropLast ++ [u]) ∧
    (prev.getLast?.map Candle.timestamp ≠ some u.timestamp →
      applyUpdate prev u =
        if 100 < prev.length + 1 then (prev ++ [u]).drop 1 else prev ++ [u]) := by
  constructor
  · intro hcond
    rw [applyUpdate_eq, if_pos hcond]
  · intro hcond
    rw [applyUpdate_eq, if_neg hcond]

theorem applyUpdate_tail_match_only_w :
    applyUpdate [mkC 3 0, mkC 4 0] (mkC 4 9) =
      [mkC 3 0, mkC 4 0].dropLast ++ [mkC 4 9] :=
  (applyUpdate_tail_match_only [mkC 3 0, mkC 4 0] (mkC 4 9)).1 (by decide)

/-- C2 counterexample: with store timestamps `[1, 2]`, an update carrying the
non-tail timestamp `1` is appended (length grows to 3) instead of replacing
the matching candle in place. -/
theorem applyUpdate_nontail_cex :
    (∃ c ∈ [mkC 1 0, mkC 2 0], c.timestamp = (mkC 1 5).timestamp) ∧
    applyUpdate [mkC 1 0, mkC 2 0] (mkC 1 5) = [mkC 1 0, mkC 2 0, mkC 1 5] ∧
    (applyUpdate [mkC 1 0, mkC 2 0] (mkC 1 5)).length = 3 := by
  decide

/-- C3 (amended): the uniqueness-and-ascending-order invariant is preserved
by `replaceAll` on invariant inputs, by `applyUpdate` on an empty store, and
by `applyUpdate` whenever the update's timestamp equals the current tail's or
is strictly newer — but not (see the counterexample) for arbitrary candles. -/
theorem storeInv_preserved :
    (∀ candles, StoreInv candles → StoreInv (replaceAll candles)) ∧
    (∀ u, StoreInv (applyUpdate [] u)) ∧
    (∀ prev u last, StoreInv prev → prev.getLast? = some last →
      (u.timestamp = last.timestamp ∨ last.timestamp < u.timestamp) →
      StoreInv (applyUpdate prev u)) := by
  refine ⟨fun candles h => h, fun u => by simp [applyUpdate, StoreInv], ?_⟩
  intro prev u last hinv hlast hts
  have hsplit : prev.dropLast ++ [last] = prev :=
    List.dropLast_append_getLast? last (Option.mem_def.mpr hlast)
  have hpw : prev.dropLast.Pairwise (fun a b => a.timestamp < b.timestamp) ∧
      ∀ a ∈ prev.dropLast, a.timestamp < last.timestamp := by
    have hinv2 := hinv
    unfold StoreInv at hinv2
    rw [← hsplit, List.pairwise_append] at hinv2
    exact ⟨hinv2.1, fun a ha => hinv2.2.2 a ha last (by simp)⟩
  rcases hts with heq | hlt
  · rw [applyUpdate_eq, if_pos (by rw [hlast]; simp [heq])]
    unfold StoreInv
    rw [List.pairwise_append]
    refine ⟨hpw.1, by simp, ?_⟩
    intro a ha b hb
    rw [List.mem_singleton] at hb
    subst hb
    rw [heq]
    exact hpw.2 a ha
  · have hcond : ¬ prev.getLast?.map Candle.timestamp = some u.timestamp := by
      intro hh
      rw [hlast] at hh
      simp at hh
      exact absurd hh (ne_of_lt hlt)
    have happ : (prev ++ [u]).Pairwise (fun a b => a.timestamp < b.timestamp) := by
      rw [List.pairwise_append]
      refine ⟨hinv, by simp, ?_⟩
      intro a ha b hb
      rw [List.mem_singleton] at hb
      subst hb
      have ha2 : a ∈ prev.dropLast ++ [last] := by rw [hsplit]; exact ha
      rcases List.mem_append.mp ha2 with h1 | h1
      · exact lt_trans (hpw.2 a h1) hlt
      · rw [List.mem_singleton] at h1
        subst h1
        exact hlt
    rw [applyUpdate_eq, if_neg hcond]
    unfold StoreInv
    by_cases hlen : 100 < prev.length + 1
    · rw [if_pos hlen]
      exact happ.sublist (List.drop_sublist 1 _)
    · rw [if_neg hlen]
      exact happ

theorem storeInv_preserved_w :
    StoreInv (applyUpdate [mkC 1 0] (mkC 2 0)) :=
  storeInv_preserved.2.2 [mkC 1 0] (mkC 2 0) (mkC 1 0) (by decide) rfl
    (Or.inr (by decide))

/-- C3 counterexample: the invariant store `[1, 2]` plus an update carrying
the old timestamp `1` yields the store `[1, 2, 1]`, which is neither sorted
nor duplicate-free — `applyUpdate` with an arbitrary candle breaks both
invariants. -/
theorem storeInv_cex :
    StoreInv [mkC 1 0, mkC 2 0] ∧
    ¬ StoreInv (applyUpdate [mkC 1 0, mkC 2 0] (mkC 1 7)) := by
  decide

/-- C8: an update whose timestamp equals the current tail's replaces the tail
element in place and leaves the store length unchanged. -/
theorem applyUpdate_tail_replace (prev : List Candle) (u last : Candle)
    (hlast : prev.getLast? = some last) (hts : last.timestamp = u.timestamp) :
    applyUpdate prev u = prev.dropLast ++ [u] ∧
    (applyUpdate prev u).length = prev.length := by
  have hcond : prev.getLast?.map Candle.timestamp = some u.timestamp := by
    rw [hlast]
    simp [hts]
  constructor
  · rw [applyUpdate_eq, if_pos hcond]
  · unfold applyUpdate
    rw [if_pos hcond]
    exact List.length_set prev _ _

theorem applyUpdate_tail_replace_w :
    applyUpdate [mkC 5 1] (mkC 5 2) = [mkC 5 1].dropLast ++ [mkC 5 2] ∧
    (applyUpdate [mkC 5 1] (mkC 5 2)).length = [mkC 5 1].length :=
  applyUpdate_tail_replace [mkC 5 1] (mkC 5 2) (mkC 5 1) rfl rfl

/-- C9 (amended): an update with a non-tail timestamp is appended as the new
last element; one oldest entry is evicted when the length passes 100, so the
final length is `min (n+1) 100` for a store of length `n ≤ 100` — a store
already longer than 100 (reachable via an untruncated snapshot) loses only
one entry and keeps its length above 100. -/
theorem applyUpdate_append_evict (prev : List Candle) (u : Candle)
    (h : prev.getLast?.map Candle.timestamp ≠ some u.timestamp) :
    (applyUpdate prev u).getLast? = some u ∧
    (prev.length < 100 → applyUpdate prev u = prev ++ [u]) ∧
    (100 ≤ prev.length → applyUpdate prev u = (prev ++ [u]).drop 1) ∧
    (prev.length ≤ 100 → (applyUpdate prev u).length = min (prev.length + 1) 100) := by
  rw [applyUpdate_eq, if_neg h]
  by_cases hlen : 100 < prev.length + 1
  · rw [if_pos hlen]
    refine ⟨?_, fun hl => absurd hl (by omega), fun _ => rfl, fun hl => ?_⟩
    · cases prev with
      | nil => exact absurd hlen (by norm_num)
      | cons a t => simp
    · rw [List.length_drop, List.length_append]
      simp only [List.length_singleton]
      omega
  · rw [if_neg hlen]
    refine ⟨by simp, fun _ => rfl, fun hge => absurd hge (by omega), fun _ => ?_⟩
    rw [List.length_append]
    simp only [List.length_singleton]
    omega

theorem applyUpdate_append_evict_w :
    (applyUpdate [mkC 1 0] (mkC 2 0)).getLast? = some (mkC 2 0) ∧
    ([mkC 1 0].length < 100 →
      applyUpdate [mkC 1 0] (mkC 2 0) = [mkC 1 0] ++ [mkC 2 0]) ∧
    (100 ≤ [mkC 1 0].length →
      applyUpdate [mkC 1 0] (mkC 2 0) = ([mkC 1 0] ++ [mkC 2 0]).drop 1) ∧
    ([mkC 1 0].length ≤ 100 →
      (applyUpdate [mkC 1 0] (mkC 2 0)).length = min ([mkC 1 0].length + 1) 100) :=
  applyUpdate_append_evict [mkC 1 0] (mkC 2 0) (by decide)

/-- C9 counterexample: on a 101-candle store (reachable because snapshots are
not truncated) an append evicts only one entry, so the final length is 101,
not 100. -/
theorem applyUpdate_evict_cex :
    (applyUpdate candles101 (mkC 500 0)).length = 101 ∧ (101 : Nat) ≠ 100 := by
  decide

/-! ### EMA lemmas -/

/-- Closed form of the defined EMA values: the seed mean at and below index
`period-1`, then the exponential recurrence. -/
def emaSpec (values : List ℚ) (p : Nat) : Nat → ℚ
  | 0 => (values.take p).sum / (p : ℚ)
  | i + 1 =>
    if i + 1 ≤ p - 1 then (values.take p).sum / (p : ℚ)
    else values.getD (i + 1) 0 * (2 / ((p : ℚ) + 1)) +
      emaSpec values p i * (1 - 2 / ((p : ℚ) + 1))

theorem emaSpec_of_le (values : List ℚ) (p : Nat) {i : Nat} (h : i ≤ p - 1) :
    emaSpec values p i = (values.take p).sum / (p : ℚ) := by
  cases i with
  | zero => rfl
  | succ j => simp only [emaSpec, if_pos h]

theorem emaGo_length (values : List ℚ) (p : Nat) (k : ℚ) :
    ∀ (rest : List ℚ) (i : Nat) (prev : Option ℚ),
      (emaGo values p k prev i rest).length = rest.length := by
  intro rest
  induction rest with
  | nil => intro i prev; rfl
  | cons v r ih =>
    intro i prev
    simp only [emaGo]
    by_cases h1 : i = p - 1
    · rw [if_pos h1]
      simp [ih]
    · rw [if_neg h1]
      by_cases h2 : p ≤ i
      · rw [if_pos h2]
        simp [ih]
      · rw [if_neg h2]
        simp [ih]

/-- Splitting `l.drop i = v :: r` into the element at `i` and the tail. -/
theorem drop_eq_cons_getD {α : Type _} (d : α) :
    ∀ (l : List α) (i : Nat) (v : α) (r : List α),
      l.drop i = v :: r → l.getD i d = v ∧ l.drop (i + 1) = r := by
  intro l
  induction l with
  | nil =>
    intro i v r h
    rw [List.drop_nil] at h
    cases h
  | cons a t ih =>
    intro i v r h
    cases i with
    | zero =>
      rw [List.drop_zero] at h
      cases h
      exact ⟨rfl, rfl⟩
    | succ j =>
      rw [List.drop_succ_cons] at h
      have hj := ih j v r h
      exact ⟨by rw [List.getD_cons_succ]; exact hj.1,
             by rw [List.drop_succ_cons]; exact hj.2⟩

theorem emaGo_getD (values : List ℚ) (p : Nat) (hp : 1 ≤ p) :
    ∀ (rest : List ℚ) (i : Nat) (prev : Option ℚ),
      rest = values.drop i →
      (p ≤ i → prev = some (emaSpec values p (i - 1))) →
      ∀ j, (emaGo values p (2 / ((p : ℚ) + 1)) prev i rest).getD j none =
        if i + j < values.length then
          (if i + j < p - 1 then none else some (emaSpec values p (i + j)))
        else none := by
  intro rest
  induction rest with
  | nil =>
    intro i prev hdrop hprev j
    have hlen : values.length ≤ i := by
      by_contra hcon
      push_neg at hcon
      have hne : values.drop i ≠ [] := by
        apply List.ne_nil_of_length_pos
        rw [List.length_drop]
        omega
      exact hne hdrop.symm
    rw [if_neg (by omega)]
    rfl
  | cons v rest' ih =>
    intro i prev hdrop hprev j
    have hfacts := drop_eq_cons_getD 0 values i v rest' hdrop.symm
    have hvlen : i < values.length := by
      by_contra hcon
      push_neg at hcon
      rw [List.drop_eq_nil_of_le hcon] at hdrop
      cases hdrop
    by_cases h1 : i = p - 1
    · -- seed index
      simp only [emaGo, if_pos h1]
      cases j with
      | zero =>
        rw [List.getD_cons_zero, if_pos (by omega), if_neg (by omega)]
        rw [emaSpec_of_le values p (by omega)]
      | succ j' =>
        rw [List.getD_cons_succ]
        have hrec := ih (i + 1) (some ((values.take p).sum / (p : ℚ)))
          hfacts.2.symm
          (fun _ => by
            rw [Nat.add_sub_cancel]
            rw [emaSpec_of_le values p (by omega)])
          j'
        rw [hrec]
        have harith : i + (j' + 1) = (i + 1) + j' := by omega
        rw [harith]
    · by_cases h2 : p ≤ i
      · -- recurrence index
        have hprev2 := hprev h2
        simp only [emaGo, if_neg h1, if_pos h2]
        have hval : v * (2 / ((p : ℚ) + 1)) +
            prev.getD 0 * (1 - 2 / ((p : ℚ) + 1)) = emaSpec values p i := by
          rw [hprev2]
          simp only [Option.getD_some]
          cases i with
          | zero => omega
          | succ m =>
            rw [hfacts.1.symm]
            simp only [emaSpec, Nat.succ_sub_one]
            rw [if_neg (by omega)]
        cases j with
        | zero =>
          rw [List.getD_cons_zero, if_pos (by omega), if_neg (by omega), hval,
            Nat.add_zero]
        | succ j' =>
          rw [List.getD_cons_succ]
          have hrec := ih (i + 1)
            (some (v * (2 / ((p : ℚ) + 1)) + prev.getD 0 * (1 - 2 / ((p : ℚ) + 1))))
            hfacts.2.symm
            (fun _ => by rw [Nat.add_sub_cancel, hval])
            j'
          rw [hrec]
          have harith : i + (j' + 1) = (i + 1) + j' := by omega
          rw [harith]
      · -- warm-up index
        simp only [emaGo, if_neg h1, if_neg h2]
        cases j with
        | zero =>
          rw [List.getD_cons_zero, if_pos (by omega), if_pos (by omega)]
        | succ j' =>
          rw [List.getD_cons_succ]
          have hrec := ih (i + 1) prev hfacts.2.symm
            (fun hc => absurd hc (by omega)) j'
          rw [hrec]
          have harith : i + (j' + 1) = (i + 1) + j' := by omega
          rw [harith]

theorem ema_getD (values : List ℚ) (p : Nat) (hp : 1 ≤ p) (j : Nat) :
    (ema values p).getD j none =
      if j < values.length then
        (if j < p - 1 then none else some (emaSpec values p j))
      else none := by
  have h := emaGo_getD values p hp values 0 none
    (List.drop_zero values).symm (fun hc => absurd hc (by omega)) j
  simpa [ema] using h

/-- C7: for any period ≥ 1 and input of length ≥ period, `ema` is `null`
exactly at indices below `period-1`; the value at `period-1` is the simple
mean of the first `period` values; and every later defined value satisfies
`ema[i] = value[i]*k + ema[i-1]*(1-k)` with `k = 2/(period+1)`. -/
theorem ema_warmup_seed_recurrence (values : List ℚ) (p : Nat)
    (hp : 1 ≤ p) (hlen : p ≤ values.length) :
    (∀ i < values.length, ((ema values p).getD i none = none ↔ i < p - 1)) ∧
    (ema values p).getD (p - 1) none = some ((values.take p).sum / (p : ℚ)) ∧
    (∀ i, p ≤ i → i < values.length → ∃ prev,
      (ema values p).getD (i - 1) none = some prev ∧
      (ema values p).getD i none =
        some (values.getD i 0 * (2 / ((p : ℚ) + 1)) +
          prev * (1 - 2 / ((p : ℚ) + 1)))) := by
  refine ⟨?_, ?_, ?_⟩
  · intro i hi
    rw [ema_getD values p hp i, if_pos hi]
    by_cases hip : i < p - 1
    · simp [hip]
    · simp [hip]
  · rw [ema_getD values p hp (p - 1), if_pos (by omega), if_neg (by omega),
      emaSpec_of_le values p (le_refl _)]
  · intro i hpi hi
    refine ⟨emaSpec values p (i - 1), ?_, ?_⟩
    · rw [ema_getD values p hp (i - 1), if_pos (by omega), if_neg (by omega)]
    · rw [ema_getD values p hp i, if_pos hi, if_neg (by omega)]
      cases i with
      | zero => omega
      | succ m =>
        simp only [emaSpec, Nat.succ_sub_one]
        rw [if_neg (by omega)]

theorem ema_warmup_seed_recurrence_w :
    (∀ i < ([(1 : ℚ), 2, 3]).length,
      ((ema [(1 : ℚ), 2, 3] 2).getD i none = none ↔ i < 2 - 1)) ∧
    (ema [(1 : ℚ), 2, 3] 2).getD (2 - 1) none =
      some ((([(1 : ℚ), 2, 3]).take 2).sum / (2 : ℚ)) ∧
    (∀ i, 2 ≤ i → i < ([(1 : ℚ), 2, 3]).length → ∃ prev,
      (ema [(1 : ℚ), 2, 3] 2).getD (i - 1) none = some prev ∧
      (ema [(1 : ℚ), 2, 3] 2).getD i none =
        some (([(1 : ℚ), 2, 3]).getD i 0 * (2 / ((2 : ℚ) + 1)) +
          prev * (1 - 2 / ((2 : ℚ) + 1)))) :=
  ema_warmup_seed_recurrence [(1 : ℚ), 2, 3] 2 (by decide) (by decide)

/-! ### RSI lemmas -/

theorem rsiRS_nonneg (g l : ℚ) (hg : 0 ≤ g) (hl : 0 ≤ l) : 0 ≤ rsiRS g l := by
  unfold rsiRS
  split
  · norm_num
  · exact div_nonneg hg hl

theorem rsiVal_bounds (rs : ℚ) (h : 0 ≤ rs) :
    0 ≤ rsiVal rs ∧ rsiVal rs < 100 := by
  unfold rsiVal
  have h1 : (0 : ℚ) < 1 + rs := by linarith
  constructor
  · have h2 : 100 / (1 + rs) ≤ 100 := by
      rw [div_le_iff₀ h1]
      nlinarith
    linarith
  · have h3 : (0 : ℚ) < 100 / (1 + rs) := div_pos (by norm_num) h1
    linarith

theorem rsiGo_bounds (p : Nat) :
    ∀ (rest : List ℚ) (st : RsiSt) (i : Nat) (prev : ℚ),
      0 ≤ st.gains → 0 ≤ st.losses → 0 ≤ st.prevAvgGain → 0 ≤ st.prevAvgLoss →
      1 ≤ p →
      ∀ x ∈ rsiGo p st i prev rest, 0 ≤ x ∧ x < 100 := by
  intro rest
  induction rest with
  | nil =>
    intro st i prev _ _ _ _ _ x hx
    simp only [rsiGo, List.not_mem_nil] at hx
  | cons v r ih =>
    intro st i prev hg hl hag hal hp x hx
    have hcast : (0 : ℚ) ≤ (p : ℚ) := Nat.cast_nonneg p
    have hpm1 : (0 : ℚ) ≤ (p : ℚ) - 1 := by
      have : (1 : ℚ) ≤ (p : ℚ) := by exact_mod_cast hp
      linarith
    have hg' : (0 : ℚ) ≤ if 0 < v - prev then st.gains + (v - prev) else st.gains := by
      split
      · linarith
      · exact hg
    have hl' : (0 : ℚ) ≤ if 0 < v - prev then st.losses else st.losses + |v - prev| := by
      split
      · exact hl
      · have := abs_nonneg (v - prev)
        linarith
    simp only [rsiGo] at hx
    by_cases h1 : i ≤ p
    · rw [if_pos h1] at hx
      by_cases h2 : i = p
      · rw [if_pos h2] at hx
        rcases List.mem_cons.mp hx with hx0 | hxr
        · subst hx0
          exact rsiVal_bounds _
            (rsiRS_nonneg _ _ (div_nonneg hg' hcast) (div_nonneg hl' hcast))
        · exact ih ⟨_, _, _, _⟩ (i + 1) v hg' hl'
            (div_nonneg hg' hcast) (div_nonneg hl' hcast) hp x hxr
      · rw [if_neg h2] at hx
        exact ih ⟨_, _, _, _⟩ (i + 1) v hg' hl' hag hal hp x hx
    · rw [if_neg h1] at hx
      have hag' : (0 : ℚ) ≤
          (st.prevAvgGain * ((p : ℚ) - 1) + max 0 (v - prev)) / (p : ℚ) :=
        div_nonneg (by positivity) hcast
      have hal' : (0 : ℚ) ≤
          (st.prevAvgLoss * ((p : ℚ) - 1) + max 0 (-(v - prev))) / (p : ℚ) :=
        div_nonneg (by positivity) hcast
      rcases List.mem_cons.mp hx with hx0 | hxr
      · subst hx0
        exact rsiVal_bounds _ (rsiRS_nonneg _ _ hag' hal')
      · exact ih ⟨st.gains, st.losses,
            (st.prevAvgGain * ((p : ℚ) - 1) + max 0 (v - prev)) / (p : ℚ),
            (st.prevAvgLoss * ((p : ℚ) - 1) + max 0 (-(v - prev))) / (p : ℚ)⟩
          (i + 1) v hg hl hag' hal' hp x hxr

/-- Defined RSI values all come from the loop. -/
theorem rsi_mem (values : List ℚ) (p : Nat) (x : ℚ)
    (hx : some x ∈ rsi values p) :
    ∃ v rest, values = v :: rest ∧ x ∈ rsiGo p ⟨0, 0, 0, 0⟩ 1 v rest := by
  cases values with
  | nil => simp [rsi] at hx
  | cons v rest =>
    refine ⟨v, rest, rfl, ?_⟩
    simp only [rsi] at hx
    by_cases h : rsiGo p ⟨0, 0, 0, 0⟩ 1 v rest = []
    · rw [if_pos h] at hx
      simp at hx
    · rw [if_neg h] at hx
      rcases List.mem_append.mp hx with h1 | h1
      · exact absurd (List.eq_of_mem_replicate h1) (by simp)
      · rcases List.mem_map.mp h1 with ⟨a, ha, hax⟩
        rw [← Option.some_inj.mp hax]
        exact ha

/-- On a non-decreasing input every emitted value is `rsiVal 100`: gains keep
the loss accumulators at zero, so `rs` is always the capped value `100`. -/
theorem rsiGo_const_of_mono (p : Nat) :
    ∀ (rest : List ℚ) (st : RsiSt) (i : Nat) (prev : ℚ),
      List.Chain' (· ≤ ·) (prev :: rest) →
      st.losses = 0 → st.prevAvgLoss = 0 →
      ∀ x ∈ rsiGo p st i prev rest, x = rsiVal 100 := by
  intro rest
  induction rest with
  | nil =>
    intro st i prev _ _ _ x hx
    simp only [rsiGo, List.not_mem_nil] at hx
  | cons v r ih =>
    intro st i prev hchain hls hpls x hx
    have hvp : prev ≤ v := (List.chain'_cons.mp hchain).1
    have htail : List.Chain' (· ≤ ·) (v :: r) := (List.chain'_cons.mp hchain).2
    have hls' : (if 0 < v - prev then st.losses else st.losses + |v - prev|) = 0 := by
      split
      · exact hls
      · next hnot =>
        have h0 : v - prev = 0 := by
          push_neg at hnot
          linarith
        rw [hls, h0, abs_zero, add_zero]
    simp only [rsiGo] at hx
    by_cases h1 : i ≤ p
    · rw [if_pos h1] at hx
      by_cases h2 : i = p
      · rw [if_pos h2] at hx
        have havg : (if 0 < v - prev then st.losses else st.losses + |v - prev|) /
            (p : ℚ) = 0 := by
          rw [hls']
          simp
        rcases List.mem_cons.mp hx with hx0 | hxr
        · rw [hx0]
          unfold rsiRS
          rw [if_pos havg]
        · exact ih ⟨_, _, _, _⟩ (i + 1) v htail hls' havg x hxr
      · rw [if_neg h2] at hx
        exact ih ⟨_, _, _, _⟩ (i + 1) v htail hls' hpls x hx
    · rw [if_neg h1] at hx
      have hloss0 : max 0 (-(v - prev)) = 0 :=
        max_eq_left (neg_nonpos.mpr (by linarith))
      have havgLoss : (st.prevAvgLoss * ((p : ℚ) - 1) + max 0 (-(v - prev))) /
          (p : ℚ) = 0 := by
        rw [hpls, hloss0]
        simp
      rcases List.mem_cons.mp hx with hx0 | hxr
      · rw [hx0]
        unfold rsiRS
        rw [if_pos havgLoss]
      · exact ih ⟨st.gains, st.losses,
            (st.prevAvgGain * ((p : ℚ) - 1) + max 0 (v - prev)) / (p : ℚ),
            (st.prevAvgLoss * ((p : ℚ) - 1) + max 0 (-(v - prev))) / (p : ℚ)⟩
          (i + 1) v htail hls havgLoss x hxr

/-- A strictly increasing 16-entry closing-price sequence. -/
def incList16 : List ℚ :=
  [0, 1, 2, 3, 4, 5, 6, 7, 8, 9, 10, 11, 12, 13, 14, 15]

/-- C4 (amended): every defined RSI(14) value lies in `[0, 100]` for every
input, and on a monotonically increasing input every defined value equals the
constant `100 - 100/101` (≈ 99.01) — the series is constant, it does not
converge to 100. -/
theorem rsi_bounds_and_mono_const (values : List ℚ) (x : ℚ)
    (hx : some x ∈ rsi values 14) :
    (0 ≤ x ∧ x ≤ 100) ∧
    (values.Chain' (· ≤ ·) → x = 100 - 100 / 101) := by
  obtain ⟨v, rest, hval, hmem⟩ := rsi_mem values 14 x hx
  constructor
  · have hb := rsiGo_bounds 14 rest ⟨0, 0, 0, 0⟩ 1 v (le_refl 0) (le_refl 0)
      (le_refl 0) (le_refl 0) (by omega) x hmem
    exact ⟨hb.1, le_of_lt hb.2⟩
  · intro hchain
    have hchain2 : List.Chain' (· ≤ ·) (v :: rest) := hval ▸ hchain
    have hc := rsiGo_const_of_mono 14 rest ⟨0, 0, 0, 0⟩ 1 v hchain2 rfl rfl x hmem
    rw [hc]
    unfold rsiVal
    norm_num

/-- The loop emits one value per processed index `≥ period`. -/
theorem rsiGo_length (p : Nat) :
    ∀ (rest : List ℚ) (st : RsiSt) (i : Nat) (prev : ℚ),
      (rsiGo p st i prev rest).length = i + rest.length - max i p := by
  intro rest
  induction rest with
  | nil =>
    intro st i prev
    simp only [rsiGo, List.length_nil]
    rcases Nat.le_total i p with h | h
    · rw [Nat.max_eq_right h]
      omega
    · rw [Nat.max_eq_left h]
      omega
  | cons v r ih =>
    intro st i prev
    simp only [rsiGo]
    by_cases h1 : i ≤ p
    · rw [if_pos h1]
      by_cases h2 : i = p
      · rw [if_pos h2]
        simp only [List.length_cons, ih]
        subst h2
        rw [Nat.max_self, Nat.max_eq_left (by omega)]
        omega
      · rw [if_neg h2, ih]
        rw [Nat.max_eq_right (by omega : i + 1 ≤ p), Nat.max_eq_right h1]
        simp only [List.length_cons]
        omega
    · rw [if_neg h1]
      simp only [List.length_cons, ih]
      rw [Nat.max_eq_left (by omega), Nat.max_eq_left (by omega)]
      omega

/-- Length behaviour of the sparse `rsi` output: the input length when the
loop assigned at least one index, the empty array otherwise. -/
theorem rsi_length (values : List ℚ) (p : Nat) (hp : 1 ≤ p) :
    (rsi values p).length =
      if values.length = 0 ∨ p + 1 ≤ values.length then values.length else 0 := by
  cases values with
  | nil => simp [rsi]
  | cons v rest =>
    simp only [rsi]
    have hlen : (rsiGo p ⟨0, 0, 0, 0⟩ 1 v rest).length = 1 + rest.length - p := by
      rw [rsiGo_length, Nat.max_eq_right hp]
    by_cases hc : rsiGo p ⟨0, 0, 0, 0⟩ 1 v rest = []
    · rw [if_pos hc]
      have h0 : 1 + rest.length - p = 0 := by
        rw [← hlen, hc]
        rfl
      rw [if_neg (by simp only [List.length_cons]; omega)]
      rfl
    · rw [if_neg hc]
      have hpos : 0 < 1 + rest.length - p := by
        rcases Nat.eq_zero_or_pos ((rsiGo p ⟨0, 0, 0, 0⟩ 1 v rest).length) with h | h
        · exact absurd (List.length_eq_zero.mp h) hc
        · rw [hlen] at h
          exact h
      rw [List.length_append, List.length_replicate, List.length_map, hlen]
      rw [if_pos (by simp only [List.length_cons]; omega)]
      simp only [List.length_cons]
      omega

/-- On a monotone input of sufficient length, the constant value `rsiVal 100`
is a member of the RSI output. -/
theorem rsi_mono_mem (v : ℚ) (rest : List ℚ) (hlen : 14 ≤ rest.length)
    (hchain : List.Chain' (· ≤ ·) (v :: rest)) :
    some (rsiVal 100) ∈ rsi (v :: rest) 14 := by
  have hlen2 : (rsiGo 14 ⟨0, 0, 0, 0⟩ 1 v rest).length = 1 + rest.length - 14 := by
    rw [rsiGo_length, Nat.max_eq_right (by omega)]
  have hne : rsiGo 14 ⟨0, 0, 0, 0⟩ 1 v rest ≠ [] := by
    intro h
    rw [h] at hlen2
    simp only [List.length_nil] at hlen2
    omega
  obtain ⟨x, hx⟩ := List.exists_mem_of_ne_nil _ hne
  have hxval := rsiGo_const_of_mono 14 rest ⟨0, 0, 0, 0⟩ 1 v hchain rfl rfl x hx
  rw [← hxval]
  simp only [rsi]
  rw [if_neg hne]
  exact List.mem_append.mpr (Or.inr (List.mem_map.mpr ⟨x, hx, rfl⟩))

/-- On a monotone input, every in-range index `j ≥ 14` of the RSI output
holds the constant value `rsiVal 100`. -/
theorem rsi_mono_getD (v : ℚ) (rest : List ℚ) (j : Nat)
    (hchain : List.Chain' (· ≤ ·) (v :: rest))
    (hj14 : 14 ≤ j) (hjlen : j < rest.length + 1) :
    (rsi (v :: rest) 14).getD j none = some (rsiVal 100) := by
  have hlen2 : (rsiGo 14 ⟨0, 0, 0, 0⟩ 1 v rest).length = 1 + rest.length - 14 := by
    rw [rsiGo_length, Nat.max_eq_right (by omega)]
  have hne : rsiGo 14 ⟨0, 0, 0, 0⟩ 1 v rest ≠ [] := by
    intro h
    rw [h] at hlen2
    simp only [List.length_nil] at hlen2
    omega
  have hidx : j - 14 < (rsiGo 14 ⟨0, 0, 0, 0⟩ 1 v rest).length := by
    rw [hlen2]
    omega
  simp only [rsi]
  rw [if_neg hne]
  rw [List.getD_eq_getElem?_getD,
    List.getElem?_append_right (by simp only [List.length_replicate]; omega),
    List.length_replicate, List.getElem?_map,
    List.getElem?_eq_getElem (by simpa using hidx)]
  have hmem : (rsiGo 14 ⟨0, 0, 0, 0⟩ 1 v rest)[j - 14] ∈
      rsiGo 14 ⟨0, 0, 0, 0⟩ 1 v rest := List.getElem_mem _
  have hval := rsiGo_const_of_mono 14 rest ⟨0, 0, 0, 0⟩ 1 v hchain rfl rfl _ hmem
  simp only [Option.map_some', Option.getD_some, hval]

theorem rsi_bounds_and_mono_const_w :
    ((0 : ℚ) ≤ rsiVal 100 ∧ rsiVal 100 ≤ 100) ∧
    (incList16.Chain' (· ≤ ·) → rsiVal 100 = 100 - 100 / 101) :=
  rsi_bounds_and_mono_const incList16 (rsiVal 100)
    (rsi_mono_mem 0 [1, 2, 3, 4, 5, 6, 7, 8, 9, 10, 11, 12, 13, 14, 15]
      (by norm_num)
      (by simp only [List.chain'_cons, List.chain'_singleton, and_true]
          norm_num))

/-- A strictly increasing 30-entry closing-price sequence. -/
def incList30 : List ℚ :=
  [0, 1, 2, 3, 4, 5, 6, 7, 8, 9, 10, 11, 12, 13, 14, 15, 16, 17, 18, 19, 20,
   21, 22, 23, 24, 25, 26, 27, 28, 29]

/-- C4 counterexample: on the increasing sequence `0, 1, …, 29` every
defined RSI value — first (index 14) and last (index 29) alike — is the
constant `rsiVal 100 = 100 - 100/101` ≈ 99.0099, bounded away from 100 by
more than `1/2`; the series does not converge to 100. -/
theorem rsi_no_convergence_cex :
    incList30.Chain' (· ≤ ·) ∧ 14 < incList30.length ∧
    (rsi incList30 14).getD 14 none = some (rsiVal 100) ∧
    (rsi incList30 14).getD 29 none = some (rsiVal 100) ∧
    rsiVal 100 = 100 - 100 / 101 ∧ (rsiVal 100 : ℚ) < 100 - 1 / 2 := by
  have hchain : incList30.Chain' (· ≤ ·) := by
    simp only [incList30, List.chain'_cons, List.chain'_singleton, and_true]
    norm_num
  refine ⟨hchain, by norm_num [incList30], ?_, ?_, ?_, ?_⟩
  · exact rsi_mono_getD 0
      [1, 2, 3, 4, 5, 6, 7, 8, 9, 10, 11, 12, 13, 14, 15, 16, 17, 18, 19, 20,
       21, 22, 23, 24, 25, 26, 27, 28, 29] 14 hchain (by norm_num) (by norm_num)
  · exact rsi_mono_getD 0
      [1, 2, 3, 4, 5, 6, 7, 8, 9, 10, 11, 12, 13, 14, 15, 16, 17, 18, 19, 20,
       21, 22, 23, 24, 25, 26, 27, 28, 29] 29 hchain (by norm_num) (by norm_num)
  · unfold rsiVal
    norm_num
  · unfold rsiVal
    norm_num

/-- An input with one small loss (delta -1) followed by thirteen large
gains (delta +101 each) across the warm-up window. -/
def rsiSpike : List ℚ :=
  [1, 0, 101, 202, 303, 404, 505, 606, 707, 808, 909, 1010, 1111, 1212, 1313]

/-- Stepwise evaluation of the warm-up loop on `rsiSpike`. -/
theorem rsiSpike_loop :
    rsiGo 14 ⟨0, 0, 0, 0⟩ 1 1 [0, 101, 202, 303, 404, 505, 606, 707, 808, 909, 1010, 1111, 1212, 1313] =
      [rsiVal 1313] := by
  rw [rsiGo.eq_2]
  simp only [if_pos (by decide : 1 ≤ 14), if_neg (by decide : ¬1 = 14),
    if_neg (by norm_num : ¬(0 : ℚ) < 0 - 1)]
  rw [rsiGo.eq_2]
  simp only [if_pos (by decide : 2 ≤ 14), if_neg (by decide : ¬2 = 14),
    if_pos (by norm_num : (0 : ℚ) < 101 - 0)]
  rw [rsiGo.eq_2]
  simp only [if_pos (by decide : 3 ≤ 14), if_neg (by decide : ¬3 = 14),
    if_pos (by norm_num : (0 : ℚ) < 202 - 101)]
  rw [rsiGo.eq_2]
  simp only [if_pos (by decide : 4 ≤ 14), if_neg (by decide : ¬4 = 14),
    if_pos (by norm_num : (0 : ℚ) < 303 - 202)]
  rw [rsiGo.eq_2]
  simp only [if_pos (by decide : 5 ≤ 14), if_neg (by decide : ¬5 = 14),
    if_pos (by norm_num : (0 : ℚ) < 404 - 303)]
  rw [rsiGo.eq_2]
  simp only [if_pos (by decide : 6 ≤ 14), if_neg (by decide : ¬6 = 14),
    if_pos (by norm_num : (0 : ℚ) < 505 - 404)]
  rw [rsiGo.eq_2]
  simp only [if_pos (by decide : 7 ≤ 14), if_neg (by decide : ¬7 = 14),
    if_pos (by norm_num : (0 : ℚ) < 606 - 505)]
  rw [rsiGo.eq_2]
  simp only [if_pos (by decide : 8 ≤ 14), if_neg (by decide : ¬8 = 14),
    if_pos (by norm_num : (0 : ℚ) < 707 - 606)]
  rw [rsiGo.eq_2]
  simp only [if_pos (by decide : 9 ≤ 14), if_neg (by decide : ¬9 = 14),
    if_pos (by norm_num : (0 : ℚ) < 808 - 707)]
  rw [rsiGo.eq_2]
  simp only [if_pos (by decide : 10 ≤ 14), if_neg (by decide : ¬10 = 14),
    if_pos (by norm_num : (0 : ℚ) < 909 - 808)]
  rw [rsiGo.eq_2]
  simp only [if_pos (by decide : 11 ≤ 14), if_neg (by decide : ¬11 = 14),
    if_pos (by norm_num : (0 : ℚ) < 1010 - 909)]
  rw [rsiGo.eq_2]
  simp only [if_pos (by decide : 12 ≤ 14), if_neg (by decide : ¬12 = 14),
    if_pos (by norm_num : (0 : ℚ) < 1111 - 1010)]
  rw [rsiGo.eq_2]
  simp only [if_pos (by decide : 13 ≤ 14), if_neg (by decide : ¬13 = 14),
    if_pos (by norm_num : (0 : ℚ) < 1212 - 1111)]
  rw [rsiGo.eq_2]
  simp only [if_pos (by decide : 14 ≤ 14), if_pos (by decide : 14 = 14),
    if_pos (by norm_num : (0 : ℚ) < 1313 - 1212)]
  rw [rsiGo.eq_1]
  norm_num [rsiRS]

/-- C10 (amended): every defined RSI(14) value is strictly less than 100
(the subtracted term `100/(1+rs)` is positive for every finite `rs ≥ 0`);
however `100 - 100/101` is not the maximal attainable value — see the
counterexample with a small non-zero average loss. -/
theorem rsi_lt_100 (values : List ℚ) (x : ℚ) (hx : some x ∈ rsi values 14) :
    x < 100 := by
  obtain ⟨v, rest, hval, hmem⟩ := rsi_mem values 14 x hx
  exact (rsiGo_bounds 14 rest ⟨0, 0, 0, 0⟩ 1 v (le_refl 0) (le_refl 0)
    (le_refl 0) (le_refl 0) (by omega) x hmem).2

theorem rsi_lt_100_w : rsiVal 100 < 100 :=
  rsi_lt_100 incList16 (rsiVal 100)
    (rsi_mono_mem 0 [1, 2, 3, 4, 5, 6, 7, 8, 9, 10, 11, 12, 13, 14, 15]
      (by norm_num)
      (by simp only [List.chain'_cons, List.chain'_singleton, and_true]
          norm_num))

/-- C10 counterexample: the input `rsiSpike` has average loss `1/14` and
average gain `1313/14` at the first defined index, so its RSI value is
`rsiVal 1313 = 65650/657` ≈ 99.92, strictly above the claimed maximum
`100 - 100/101` ≈ 99.01. -/
theorem rsi_max_bound_cex :
    (rsi rsiSpike 14).getD 14 none = some (rsiVal 1313) ∧
    rsiVal 1313 = 65650 / 657 ∧
    (100 - 100 / 101 : ℚ) < 65650 / 657 := by
  refine ⟨?_, by norm_num [rsiVal], by norm_num⟩
  show (rsi rsiSpike 14).getD 14 none = some (rsiVal 1313)
  simp only [rsiSpike, rsi]
  rw [rsiSpike_loop]
  rw [if_neg (by simp)]
  rw [List.getD_eq_getElem?_getD,
    List.getElem?_append_right (by simp),
    List.length_replicate]
  simp

/-- C5 (amended): EMA (both periods used), SMA and the Bollinger bands always
return an output of the same length as the input; RSI does so only when the
input is empty or has length ≥ 15 — for input lengths 1 … 14 the sparse
output array is empty, not index-aligned. -/
theorem indicator_lengths (values : List ℚ) :
    (ema values 12).length = values.length ∧
    (ema values 26).length = values.length ∧
    (sma values 20).length = values.length ∧
    (bbUpperLower values).length = values.length ∧
    ((values.length = 0 ∨ 15 ≤ values.length) →
      (rsi values 14).length = values.length) ∧
    ((1 ≤ values.length ∧ values.length ≤ 14) → (rsi values 14).length = 0) := by
  refine ⟨?_, ?_, ?_, ?_, ?_, ?_⟩
  · exact emaGo_length values 12 (2 / ((12 : ℚ) + 1)) values 0 none
  · exact emaGo_length values 26 (2 / ((26 : ℚ) + 1)) values 0 none
  · simp [sma]
  · simp [bbUpperLower]
  · intro h
    rw [rsi_length values 14 (by omega), if_pos (by omega)]
  · intro h
    rw [rsi_length values 14 (by omega), if_neg (by omega)]

theorem indicator_lengths_w :
    (rsi [(0 : ℚ), 1, 2, 3, 4, 5, 6, 7, 8, 9, 10, 11, 12, 13, 14, 15] 14).length =
      ([(0 : ℚ), 1, 2, 3, 4, 5, 6, 7, 8, 9, 10, 11, 12, 13, 14, 15]).length ∧
    (rsi [(1 : ℚ)] 14).length = 0 :=
  ⟨(indicator_lengths _).2.2.2.2.1 (Or.inr (by decide)),
   (indicator_lengths _).2.2.2.2.2 (by decide)⟩

/-- C5 counterexample: on the one-element input the RSI output is the empty
sequence — its length 0 differs from the input length 1, so not every
indicator output is index-aligned with its input. -/
theorem rsi_length_cex :
    (rsi [(1 : ℚ)] 14).length = 0 ∧ ([(1 : ℚ)] : List ℚ).length = 1 := by
  decide

/-- Pointwise description of the `sma` output. -/
theorem sma_getD (values : List ℚ) (p : Nat) (i : Nat) :
    (sma values p).getD i none =
      if i < values.length then
        (if p - 1 ≤ i then
          some ((((values.drop (i + 1 - p)).take p).sum) / (p : ℚ))
         else none)
      else none := by
  unfold sma
  by_cases h : i < values.length
  · rw [if_pos h]
    rw [List.getD_eq_getElem?_getD, List.getElem?_map, List.getElem?_range h]
    simp only [Option.map_some', Option.getD_some]
  · rw [if_neg h]
    rw [List.getD_eq_getElem?_getD,
      List.getElem?_eq_none (by simp only [List.length_map, List.length_range]; omega)]
    rfl

/-- C6: wherever the Bollinger middle band is defined it equals the rolling
simple mean of the trailing 20-value window, and at every such index the
upper and lower bands are defined and symmetric about the middle:
`upper - middle = middle - lower`. -/
theorem bb_middle_and_symmetry (closes : List ℚ) (i : Nat) (m : ℚ)
    (hm : (sma closes 20).getD i none = some m) :
    m = ((closes.drop (i + 1 - 20)).take 20).sum / 20 ∧
    ∃ u l : ℝ, ((bbUpperLower closes).getD i (none, none)).1 = some u ∧
      ((bbUpperLower closes).getD i (none, none)).2 = some l ∧
      u - (m : ℝ) = (m : ℝ) - l := by
  have hsma := sma_getD closes 20 i
  rw [hm] at hsma
  by_cases hlen : i < closes.length
  · rw [if_pos hlen] at hsma
    by_cases h19 : 20 - 1 ≤ i
    · rw [if_pos h19] at hsma
      have hmval : m = ((closes.drop (i + 1 - 20)).take 20).sum / 20 :=
        (Option.some_inj.mp hsma.symm).symm
      refine ⟨by exact_mod_cast hmval, ?_⟩
      unfold bbUpperLower
      rw [List.getD_eq_getElem?_getD, List.getElem?_map, List.getElem?_range hlen]
      simp only [Option.map_some', Option.getD_some]
      rw [if_pos ⟨h19, by rw [hm]; exact Option.some_ne_none m⟩]
      have hmean : ((sma closes 20).getD i none).getD 0 = m := by
        rw [hm]
        rfl
      rw [hmean]
      exact ⟨_, _, rfl, rfl, by ring⟩
    · rw [if_neg h19] at hsma
      cases hsma
  · rw [if_neg hlen] at hsma
    cases hsma

theorem bb_middle_and_symmetry_w :
    (1 : ℚ) = (((List.replicate 20 (1 : ℚ)).drop (19 + 1 - 20)).take 20).sum / 20 ∧
    ∃ u l : ℝ,
      ((bbUpperLower (List.replicate 20 (1 : ℚ))).getD 19 (none, none)).1 = some u ∧
      ((bbUpperLower (List.replicate 20 (1 : ℚ))).getD 19 (none, none)).2 = some l ∧
      u - ((1 : ℚ) : ℝ) = ((1 : ℚ) : ℝ) - l :=
  bb_middle_and_symmetry (List.replicate 20 1) 19 1
    (by rw [sma_getD]
        norm_num [List.take_replicate, List.sum_replicate])
